import Mathlib

/-!
# Verification of the MVS model loader (`src/mvs/model.cc`)

Shallow embedding of the COLMAP multi-view-stereo `Model` component: the two
format readers (`Read`, `ReadFromCOLMAP`, `ReadFromPMVS`), the name/index
lookups (`GetImageId`, `GetImageName`), and the two derived-geometry
algorithms (`ComputeDepthRanges`, `ComputeSharedPoints`).

Modelling conventions:
* C++ `float` arithmetic is modelled by exact rational arithmetic (`ℚ`);
  the percentile index `size() * 0.01f` (truncated to `size_t`) is modelled
  as the exact floor `n / 100` (and `99 * n / 100`).
* Fatal `CHECK`/`LOG(FATAL)` failures abort the load with no partial result;
  loading is therefore modelled as an `Option`-returning function, `none`
  standing for a fatal abort.
* `std::map<int,int>` count tables are modelled by their lookup semantics:
  an absent key is a zero count.
-/

namespace ColmapMvs

/-- One camera frame of the loaded model: calibration `K`, world→camera
rotation `R` (row-major 3×3) and translation `T`, as stored by
`images.emplace_back(image_path, K, R, T)`. The image path is kept in the
parallel `imageNames` list of `Model`. -/
structure ImagePose where
  K : Fin 3 → Fin 3 → ℚ
  R : Fin 3 → Fin 3 → ℚ
  T : Fin 3 → ℚ

/-- Default pose (only used as `getD` fallback, never on valid indices). -/
def defaultPose : ImagePose :=
  { K := fun _ _ => 0, R := fun _ _ => 0, T := fun _ => 0 }

instance : Inhabited ImagePose := ⟨defaultPose⟩

/-- A sparse 3D point with the list of frame indices observing it
(`struct Point { float x, y, z; std::vector<int> track; }`). -/
structure Point where
  x : ℚ
  y : ℚ
  z : ℚ
  track : List ℕ

/-- The scene model: frame list, parallel frame-name list (`image_names_`,
from which the `image_name_to_id_` map is built entry by entry), and the
point list. -/
structure Model where
  images : List ImagePose
  imageNames : List String
  points : List Point

/-- `Model::GetImageId`: the `image_name_to_id_` unordered map is populated
with `emplace(name_i, i)` in index order, and `emplace` keeps the first
binding of a key; a lookup therefore returns the least index carrying the
name.  The `CHECK_GT(count(name), 0)` fatal on a missing name is modelled
by `none`. -/
def Model.getImageId (m : Model) (name : String) : Option ℕ :=
  (List.range m.imageNames.length).find? (fun i => m.imageNames.getD i "" == name)

/-- `Model::GetImageName`: bounds-checked (`CHECK_GE`/`CHECK_LT`, fatal
modelled by `none`) lookup in `image_names_`. -/
def Model.getImageName (m : Model) (i : ℕ) : Option String :=
  m.imageNames[i]?

/-! ## `Model::ComputeDepthRanges` -/

/-- Row `r` of the camera-space coordinates `R * X + T` of point `p`:
`camCoord img p 2` is exactly the depth expression
`Eigen::Map<const Eigen::Vector3f>(&image.GetR()[6]).dot(X) + image.GetT()[2]`
(the third row of row-major `R` starts at flat offset 6). -/
def camCoord (img : ImagePose) (p : Point) (r : Fin 3) : ℚ :=
  img.R r 0 * p.x + img.R r 1 * p.y + img.R r 2 * p.z + img.T r

/-- The depth of point `p` in frame `i`. -/
def pointDepth (m : Model) (i : ℕ) (p : Point) : ℚ :=
  camCoord (m.images.getD i default) p 2

/-- The per-frame positive-depth sample list `depths[i]`: iterate the points
in order; each occurrence of `i` in a point's track contributes the point's
depth when `depth > 0`. -/
def imageDepths (m : Model) (i : ℕ) : List ℚ :=
  m.points.flatMap (fun p =>
    (p.track.filter (fun t => t == i)).filterMap (fun _ =>
      if 0 < pointDepth m i p then some (pointDepth m i p) else none))

/-- The range computed from one frame's sample list: `(-1, -1)` when empty,
otherwise sort ascending and take the `⌊n·0.01⌋` and `⌊n·0.99⌋` entries,
stretched by `1 - 0.25` and `1 + 0.25`. -/
def depthRange (samples : List ℚ) : ℚ × ℚ :=
  if samples.isEmpty then (-1, -1)
  else
    let sorted := samples.mergeSort
    let n := sorted.length
    (sorted.getD (n / 100) 0 * (3 / 4), sorted.getD (99 * n / 100) 0 * (5 / 4))

/-- `Model::ComputeDepthRanges`: one `(low, high)` pair per frame, in frame
order. -/
def computeDepthRanges (m : Model) : List (ℚ × ℚ) :=
  (List.range m.images.length).map (fun i => depthRange (imageDepths m i))

/-! ## `Model::ComputeSharedPoints` -/

/-- The ordered pairs `(track[i], track[j])` for `j < i`, in the order the
two nested `for` loops of `ComputeSharedPoints` produce them; `seen` is the
already-traversed prefix. -/
def pairsAux (seen : List ℕ) : List ℕ → List (ℕ × ℕ)
  | [] => []
  | x :: xs => (seen.map (fun s => (x, s))) ++ pairsAux (seen ++ [x]) xs

/-- All ordered position pairs `(track[i], track[j])`, `j < i`, of a track. -/
def trackPairs (t : List ℕ) : List (ℕ × ℕ) :=
  pairsAux [] t

/-- Whether the loop body at pair `q = (image_id1, image_id2)` increments the
`(a, b)` cell: it does so once via `shared_points.at(id1)[id2] += 1` when
`(id1, id2) = (a, b)` and once via `shared_points.at(id2)[id1] += 1` when
`(id1, id2) = (b, a)`, in either case only when `id1 != id2`. -/
def pairHits (a b : ℕ) (q : ℕ × ℕ) : Bool :=
  q.1 != q.2 && ((q.1 == a && q.2 == b) || (q.1 == b && q.2 == a))

/-- The final value of cell `shared_points.at(a)[b]` (0 when the key was
never created): total number of loop-body executions incrementing it. -/
def sharedCount (m : Model) (a b : ℕ) : ℕ :=
  (m.points.map (fun p => ((trackPairs p.track).filter (pairHits a b)).length)).sum

/-! ## `Model::ReadFromPMVS` -/

/-- One decimal digit as a character (the characters `%08d` prints). -/
def digitChar (d : ℕ) : Char :=
  match d with
  | 0 => '0' | 1 => '1' | 2 => '2' | 3 => '3' | 4 => '4'
  | 5 => '5' | 6 => '6' | 7 => '7' | 8 => '8' | _ => '9'

/-- Fuel-driven most-significant-first decimal rendering of a natural
number (any `fuel > n` suffices). -/
def natDigitsAux : ℕ → ℕ → List Char
  | 0, _ => []
  | fuel + 1, n =>
    if n < 10 then [digitChar n]
    else natDigitsAux fuel (n / 10) ++ [digitChar (n % 10)]

/-- The decimal digit string of `n`, as `printf("%d")` renders it. -/
def natDigits (n : ℕ) : List Char :=
  natDigitsAux (n + 1) n

/-- `StringPrintf("%08d.jpg", image_id)`: the decimal rendering left-padded
with `'0'` to at least 8 characters, followed by `.jpg`. -/
def pmvsImageName (i : ℕ) : String :=
  ⟨List.replicate (8 - (natDigits i).length) '0' ++ natDigits i ++ ".jpg".data⟩

/-- The numeric value of a decimal digit string (used to invert
`natDigits`). -/
def ofDigits (l : List Char) : ℕ :=
  l.foldl (fun acc c => 10 * acc + (c.toNat - 48)) 0

/-- One per-image record of the bundle file, together with the pixel
dimensions of the corresponding `visualize/%08d.jpg` image (the bitmap the
reader probes for the principal point).  The reader consumes, in order:
focal length `f`, distortion `k1 k2`, row-major rotation `R`, translation
`T`. -/
structure PMVSImage where
  f : ℚ
  width : ℕ
  height : ℕ
  k1 : ℚ
  k2 : ℚ
  R : Fin 3 → Fin 3 → ℚ
  T : Fin 3 → ℚ

/-- One track entry `(imageIndex, featureIndex, projX, projY)` of a bundle
point; `imageIndex` is read into a C `int`, hence `ℤ`. -/
structure PMVSTrackEl where
  imageIdx : ℤ
  featureIdx : ℤ
  imx : ℚ
  imy : ℚ

/-- One point record of the bundle file: coordinates, a (discarded) color,
and the track. -/
structure PMVSPoint where
  x : ℚ
  y : ℚ
  z : ℚ
  color : ℤ × ℤ × ℤ
  track : List PMVSTrackEl

/-- The parsed token content of a well-formed `bundle.rd.out` file (header
line and counts abstracted away by the lists' lengths). -/
structure PMVSInput where
  images : List PMVSImage
  points : List PMVSPoint

/-- The calibration built by the PMVS reader:
`K = {f, 0, w/2, 0, f, h/2, 0, 0, 1}` row-major. -/
def pmvsK (img : PMVSImage) : Fin 3 → Fin 3 → ℚ := fun r c =>
  match r.val, c.val with
  | 0, 0 => img.f
  | 0, 2 => (img.width : ℚ) / 2
  | 1, 1 => img.f
  | 1, 2 => (img.height : ℚ) / 2
  | 2, 2 => 1
  | _, _ => 0

/-- The rotation stored by the PMVS reader: flat entries `R[3..8]` — rows 1
and 2 (0-indexed) — are negated, row 0 is kept. -/
def pmvsR (R : Fin 3 → Fin 3 → ℚ) : Fin 3 → Fin 3 → ℚ := fun r c =>
  if r.val = 0 then R r c else -(R r c)

/-- The translation stored by the PMVS reader: components 1 and 2
(0-indexed) are negated, component 0 is kept. -/
def pmvsT (T : Fin 3 → ℚ) : Fin 3 → ℚ := fun r =>
  if r.val = 0 then T r else -(T r)

/-- The implicit `int → std::size_t` conversion performed by
`CHECK_LT(point.track[i], images.size())`: reduction modulo `2^64`. -/
def sizeTofInt (i : ℤ) : ℕ :=
  (i % (2 : ℤ) ^ 64).toNat

/-- Sequential fallible traversal: process the list front to back, aborting
at the first failure (the behaviour of the readers' loops, whose `CHECK`
failures abort the whole load). -/
def mapOpt {α β : Type} (f : α → Option β) : List α → Option (List β)
  | [] => some []
  | x :: xs => do
    let y ← f x
    let ys ← mapOpt f xs
    some (y :: ys)

/-- The frame built by one iteration of the PMVS image loop (`none`: fatal
non-zero distortion). -/
def pmvsImageEntry (e : ℕ × PMVSImage) : Option (ImagePose × String) :=
  if e.2.k1 = 0 ∧ e.2.k2 = 0 then
    some (({ K := pmvsK e.2, R := pmvsR e.2.R, T := pmvsT e.2.T } : ImagePose),
          pmvsImageName e.1)
  else none

/-- One track entry of the PMVS point loop: keep only the image index,
subject to `CHECK_LT(point.track[i], images.size())` — an `int`-vs-`size_t`
comparison, hence through `sizeTofInt`. -/
def pmvsTrackEntry (numImages : ℕ) (el : PMVSTrackEl) : Option ℕ :=
  if sizeTofInt el.imageIdx < numImages then some el.imageIdx.toNat else none

/-- The point built by one iteration of the PMVS point loop. -/
def pmvsPointEntry (numImages : ℕ) (p : PMVSPoint) : Option Point := do
  let tr ← mapOpt (pmvsTrackEntry numImages) p.track
  pure { x := p.x, y := p.y, z := p.z, track := tr }

/-- `Model::ReadFromPMVS` on a parsed bundle file.  `none` models a fatal
`CHECK` failure: non-zero `k1`/`k2`, or a track entry whose image index
fails the bounds check. -/
def readFromPMVS (inp : PMVSInput) : Option Model := do
  let imgs ← mapOpt pmvsImageEntry inp.images.enum
  let pts ← mapOpt (pmvsPointEntry inp.images.length) inp.points
  pure { images := imgs.map Prod.fst, imageNames := imgs.map Prod.snd, points := pts }

/-! ## `Model::ReadFromCOLMAP`

The upstream `Reconstruction` collaborator (`base/reconstruction`) is not
part of this component; its interface is modelled from the spec. -/

/-- Modelled from the spec: the identifier of the undistorted pinhole camera
model, the only model the canonical reader accepts
(`CHECK_EQ(camera.ModelId(), PinholeCameraModel::model_id)`). -/
def pinholeModelId : ℕ := 1

/-- Modelled from the spec: an upstream camera: its model identifier and
calibration matrix. -/
structure ColmapCamera where
  modelId : ℕ
  K : Fin 3 → Fin 3 → ℚ

/-- Modelled from the spec: an upstream registered image: name, orientation
quaternion `(w, x, y, z)`, translation, and its camera. -/
structure ColmapImage where
  name : String
  qvec : Fin 4 → ℚ
  tvec : Fin 3 → ℚ
  camera : ColmapCamera

/-- Modelled from the spec: an upstream 3D point: coordinates and a track of
`(imageId, featureIndex)` pairs. -/
structure ColmapPoint where
  x : ℚ
  y : ℚ
  z : ℚ
  track : List (ℕ × ℕ)

/-- Modelled from the spec: the upstream reconstruction, reduced to what the
reader consumes: the registered images (id and data) in enumeration order,
and the 3D points. -/
structure ColmapInput where
  regImages : List (ℕ × ColmapImage)
  points : List ColmapPoint

/-- Modelled from the spec: the standard quaternion→rotation-matrix
conversion (`QuaternionToRotationMatrix`, which normalizes the quaternion
first), written in the scale-invariant form dividing by the squared norm. -/
def quatToRot (q : Fin 4 → ℚ) : Fin 3 → Fin 3 → ℚ :=
  let w := q 0
  let x := q 1
  let y := q 2
  let z := q 3
  let n := w * w + x * x + y * y + z * z
  fun r c =>
    (match r.val, c.val with
     | 0, 0 => n - 2 * (y * y + z * z)
     | 0, 1 => 2 * (x * y - w * z)
     | 0, 2 => 2 * (x * z + w * y)
     | 1, 0 => 2 * (x * y + w * z)
     | 1, 1 => n - 2 * (x * x + z * z)
     | 1, 2 => 2 * (y * z - w * x)
     | 2, 0 => 2 * (x * z - w * y)
     | 2, 1 => 2 * (y * z + w * x)
     | _, _ => n - 2 * (x * x + y * y)) / n

/-- The `image_id_map` lookup: `std::unordered_map::emplace(image_id, i)` in
loop order keeps the first binding, so the lookup returns the least position
of the id in the registered-image list; `none` models the `std::out_of_range`
thrown by `image_id_map.at` on an unmapped id. -/
def colmapIdMap (inp : ColmapInput) (id : ℕ) : Option ℕ :=
  ((inp.regImages.map Prod.fst).enum.find? (fun e => e.2 == id)).map Prod.fst

/-- The frame built by one iteration of the COLMAP image loop (`none`: fatal
non-pinhole camera model). -/
def colmapImageEntry (e : ℕ × ColmapImage) : Option (ImagePose × String) :=
  if e.2.camera.modelId = pinholeModelId then
    some (({ K := e.2.camera.K, R := quatToRot e.2.qvec, T := e.2.tvec } : ImagePose),
          e.2.name)
  else none

/-- The point built by one iteration of the COLMAP point loop: every track
element's upstream image id is rewritten through `image_id_map.at`. -/
def colmapPointEntry (inp : ColmapInput) (p : ColmapPoint) : Option Point := do
  let tr ← mapOpt (fun el => colmapIdMap inp el.1) p.track
  pure { x := p.x, y := p.y, z := p.z, track := tr }

/-- `Model::ReadFromCOLMAP` over the modelled upstream reconstruction.
`none` models a fatal abort: a non-pinhole camera, or a track element whose
image id is not a registered image's id. -/
def readFromCOLMAP (inp : ColmapInput) : Option Model := do
  let imgs ← mapOpt colmapImageEntry inp.regImages
  let pts ← mapOpt (colmapPointEntry inp) inp.points
  pure { images := imgs.map Prod.fst, imageNames := imgs.map Prod.snd, points := pts }

/-- `Model::Read`: format dispatch; any tag other than the two recognized
ones is fatal. -/
def modelRead (format : String) (pmvs : PMVSInput) (colmap : ColmapInput) : Option Model :=
  if format = "COLMAP" then readFromCOLMAP colmap
  else if format = "PMVS" then readFromPMVS pmvs
  else none

/-! ## Concrete test fixtures -/

/-- The empty model (also the `getD` fallback for loader results). -/
def emptyModel : Model :=
  { images := [], imageNames := [], points := [] }

/-- A frame at the world origin looking along the world z-axis:
`R = I`, `T = 0`. -/
def idPose : ImagePose :=
  { K := fun _ _ => 0, R := fun r c => if r = c then 1 else 0, T := fun _ => 0 }

/-- The depth-range scenario of the spec: one frame observing 100 points
whose depths are exactly `1..100`. -/
def model100 : Model :=
  { images := [idPose],
    imageNames := ["00000000.jpg"],
    points := (List.range 100).map (fun k => { x := 0, y := 0, z := mkRat (k + 1) 1, track := [0] }) }

/-- One frame, no points: its positive-depth sample list is empty. -/
def noSampleModel : Model :=
  { images := [idPose], imageNames := ["00000000.jpg"], points := [] }

/-- A point at world coordinates `(0, 0, 5)` observed by frame 0. -/
def aheadPoint : Point :=
  { x := 0, y := 0, z := 5, track := [0] }

/-- One frame and one point directly ahead of it at distance 5. -/
def aheadModel : Model :=
  { images := [idPose],
    imageNames := ["00000000.jpg"],
    points := [aheadPoint] }

/-- The co-visibility scenario of the spec: one point observed by frames
`{0, 1, 2}`. -/
def model3 : Model :=
  { images := [idPose, idPose, idPose],
    imageNames := ["a", "b", "c"],
    points := [{ x := 0, y := 0, z := 0, track := [0, 1, 2] }] }

/-- One point whose track holds a duplicated frame index: `[a, a, b]`. -/
def dupTrackModel (a b : ℕ) : Model :=
  { images := List.replicate (max a b + 1) defaultPose,
    imageNames := List.replicate (max a b + 1) "",
    points := [{ x := 0, y := 0, z := 0, track := [a, a, b] }] }

/-- A distortion-free PMVS image record with pairwise distinct rotation
entries (`R r c = 3r + c + 1`) and translation `(1, 2, 3)`. -/
def pexImage : PMVSImage :=
  { f := 1, width := 4, height := 2, k1 := 0, k2 := 0,
    R := fun r c => mkRat (3 * r.val + c.val + 1) 1,
    T := fun r => mkRat (r.val + 1) 1 }

/-- A bundle input holding just `pexImage`. -/
def pexInput : PMVSInput :=
  { images := [pexImage], points := [] }

/-- The model loaded from `pexInput`. -/
def pexModel : Model :=
  (readFromPMVS pexInput).getD emptyModel

/-- A two-image distortion-free bundle input (no points). -/
def pexInput2 : PMVSInput :=
  { images := [pexImage, pexImage], points := [] }

/-- The model loaded from `pexInput2`. -/
def pexModel2 : Model :=
  (readFromPMVS pexInput2).getD emptyModel

/-- A bundle input whose only point has a track entry referencing image
index 1 while only one image exists. -/
def badTrackPMVS : PMVSInput :=
  { images := [pexImage],
    points := [{ x := 0, y := 0, z := 0, color := (0, 0, 0),
                 track := [{ imageIdx := 1, featureIdx := 0, imx := 0, imy := 0 }] }] }

/-- A bundle input whose only image has non-zero distortion `k1 = 1`. -/
def badDistPMVS : PMVSInput :=
  { images := [{ pexImage with k1 := 1 }], points := [] }

/-- A pinhole camera for the COLMAP fixtures. -/
def cexCamera : ColmapCamera :=
  { modelId := pinholeModelId, K := fun _ _ => 0 }

/-- A registered upstream image with id 7. -/
def cexImage : ColmapImage :=
  { name := "view.png", qvec := fun _ => 1, tvec := fun _ => 0, camera := cexCamera }

/-- A COLMAP input whose only point references the unregistered image id 5. -/
def badTrackCOLMAP : ColmapInput :=
  { regImages := [(7, cexImage)],
    points := [{ x := 0, y := 0, z := 0, track := [(5, 0)] }] }

/-! ## General lemmas -/

theorem computeDepthRanges_length (m : Model) :
    (computeDepthRanges m).length = m.images.length := by
  simp [computeDepthRanges]

theorem computeDepthRanges_getD (m : Model) (i : ℕ) (hi : i < m.images.length) :
    (computeDepthRanges m).getD i (0, 0) = depthRange (imageDepths m i) := by
  simp [computeDepthRanges, List.getD_eq_getElem?_getD, List.getElem?_map,
    List.getElem?_range hi]

theorem imageDepths_pos (m : Model) (i : ℕ) : ∀ x ∈ imageDepths m i, 0 < x := by
  intro x hx
  simp only [imageDepths, List.mem_flatMap, List.mem_filterMap, List.mem_filter] at hx
  obtain ⟨p, _, _, _, hsome⟩ := hx
  by_cases h : 0 < pointDepth m i p
  · rw [if_pos h] at hsome
    exact (Option.some_inj.mp hsome) ▸ h
  · rw [if_neg h] at hsome
    exact absurd hsome (Option.some_ne_none _).symm

/-! ## Claims about `ComputeDepthRanges` -/

/-- **C1**: for a frame whose positive-depth sample list is non-empty, the
returned pair is `(sorted[⌊n·0.01⌋] · 0.75, sorted[⌊n·0.99⌋] · 1.25)` over
the ascending-sorted samples, with truncating index computation; for
`n = 1` both pre-scaling percentiles are `samples[0]`. -/
theorem depthRange_percentile (m : Model) (i : ℕ) (hi : i < m.images.length)
    (hne : imageDepths m i ≠ []) :
    (computeDepthRanges m).getD i (0, 0) =
      ((imageDepths m i).mergeSort.getD ((imageDepths m i).mergeSort.length / 100) 0 * (3 / 4),
       (imageDepths m i).mergeSort.getD (99 * (imageDepths m i).mergeSort.length / 100) 0
         * (5 / 4)) ∧
    ((imageDepths m i).mergeSort.length = 1 →
      (imageDepths m i).mergeSort.getD ((imageDepths m i).mergeSort.length / 100) 0
        = (imageDepths m i).mergeSort.getD 0 0 ∧
      (imageDepths m i).mergeSort.getD (99 * (imageDepths m i).mergeSort.length / 100) 0
        = (imageDepths m i).mergeSort.getD 0 0) := by
  constructor
  · rw [computeDepthRanges_getD m i hi, depthRange, if_neg (by simpa using hne)]
  · intro h1
    simp [h1]

unseal Rat.mul Rat.add Rat.sub Rat.inv in
/-- Witness for C1: the spec's 100-point scenario returns `(1.5, 125)`. -/
theorem depthRange_percentile_witness :
    (computeDepthRanges model100).getD 0 (0, 0) = (3 / 2, 125) := by
  have he : imageDepths model100 0 = (List.range 100).map (fun k => mkRat (k + 1) 1) := by
    decide
  have hs : (imageDepths model100 0).mergeSort
      = (List.range 100).map (fun k => mkRat (k + 1) 1) := by
    rw [he]
    exact List.mergeSort_eq_self (by decide)
  have h := depthRange_percentile model100 0 (by decide) (by decide)
  rw [h.1, hs]
  decide

/-- **C3**: the depth of a point for a frame is the dot product of the third
row of `R` with the world coordinates plus `T[2]`; a point directly ahead at
distance `d > 0` has depth exactly `d`; no non-positive depth ever enters the
sample list. -/
theorem depth_sign (m : Model) (i : ℕ) (p : Point) (d : ℚ) (hd : 0 < d)
    (h0 : camCoord (m.images.getD i default) p 0 = 0)
    (h1 : camCoord (m.images.getD i default) p 1 = 0)
    (h2 : camCoord (m.images.getD i default) p 2 = d) :
    pointDepth m i p =
      (m.images.getD i default).R 2 0 * p.x + (m.images.getD i default).R 2 1 * p.y +
        (m.images.getD i default).R 2 2 * p.z + (m.images.getD i default).T 2 ∧
    pointDepth m i p = d ∧
    ∀ x ∈ imageDepths m i, 0 < x :=
  ⟨rfl, h2, imageDepths_pos m i⟩

unseal Rat.mul Rat.add Rat.sub Rat.inv in
/-- Witness for C3: the point at `(0,0,5)` straight ahead of the identity
pose has depth exactly 5. -/
theorem depth_sign_witness :
    (0 : ℚ) < 5 ∧ pointDepth aheadModel 0 aheadPoint = 5 :=
  ⟨by norm_num,
   (depth_sign aheadModel 0 aheadPoint 5 (by norm_num) (by decide) (by decide)
      (by decide)).2.1⟩

/-- **C8**: the result has exactly one pair per frame, in frame order, and a
frame with an empty sample list gets the sentinel `(-1, -1)`. -/
theorem depthRanges_sentinel (m : Model) (i : ℕ) (hi : i < m.images.length)
    (hempty : imageDepths m i = []) :
    (computeDepthRanges m).length = m.images.length ∧
    (computeDepthRanges m).getD i (0, 0) = (-1, -1) := by
  refine ⟨computeDepthRanges_length m, ?_⟩
  rw [computeDepthRanges_getD m i hi, hempty]
  rfl

/-- Witness for C8: a frame with no samples yields `(-1, -1)`. -/
theorem depthRanges_sentinel_witness :
    (computeDepthRanges noSampleModel).length = 1 ∧
    (computeDepthRanges noSampleModel).getD 0 (0, 0) = (-1, -1) :=
  have h := depthRanges_sentinel noSampleModel 0 (by decide) rfl
  ⟨h.1.trans rfl, h.2⟩

/-- **C9**: a non-sentinel depth range is strictly positive and strictly
ordered: `0 < low < high`. -/
theorem depthRange_nondegenerate (m : Model) (i : ℕ) (hi : i < m.images.length)
    (hne : imageDepths m i ≠ []) :
    0 < ((computeDepthRanges m).getD i (0, 0)).1 ∧
    ((computeDepthRanges m).getD i (0, 0)).1 < ((computeDepthRanges m).getD i (0, 0)).2 := by
  rw [computeDepthRanges_getD m i hi, depthRange, if_neg (by simpa using hne)]
  have hperm := List.mergeSort_perm (imageDepths m i) (fun a b => a ≤ b)
  set s := (imageDepths m i).mergeSort with hs
  have hlen : 0 < s.length := by
    rw [hperm.length_eq]
    exact List.length_pos.mpr hne
  have hsorted : List.Sorted (· ≤ ·) s := List.sorted_mergeSort' _
  have hmem : ∀ x ∈ s, 0 < x := fun x hx => imageDepths_pos m i x (hperm.subset hx)
  have h1 : s.length / 100 < s.length := Nat.div_lt_self hlen (by norm_num)
  have h2 : 99 * s.length / 100 < s.length := by
    rw [Nat.div_lt_iff_lt_mul (by norm_num : (0:ℕ) < 100)]
    omega
  have h12 : s.length / 100 ≤ 99 * s.length / 100 := Nat.div_le_div_right (by omega)
  have e1 : s.getD (s.length / 100) 0 = s.get ⟨s.length / 100, h1⟩ := by
    simp [List.getD_eq_getElem?_getD, List.getElem?_eq_getElem h1]
  have e2 : s.getD (99 * s.length / 100) 0 = s.get ⟨99 * s.length / 100, h2⟩ := by
    simp [List.getD_eq_getElem?_getD, List.getElem?_eq_getElem h2]
  have hp1 : 0 < s.get ⟨s.length / 100, h1⟩ := hmem _ (s.get_mem _ _)
  have hle : s.get ⟨s.length / 100, h1⟩ ≤ s.get ⟨99 * s.length / 100, h2⟩ :=
    hsorted.rel_get_of_le (by exact Fin.mk_le_mk.mpr h12)
  constructor
  · dsimp only
    rw [e1]
    nlinarith [hp1]
  · dsimp only
    rw [e1, e2]
    nlinarith [hp1, hle]

unseal Rat.mul Rat.add Rat.sub Rat.inv in
/-- Witness for C9: the one-sample frame gets the range `(0.75·5, 1.25·5)`,
strictly positive and ordered. -/
theorem depthRange_nondegenerate_witness :
    0 < ((computeDepthRanges aheadModel).getD 0 (0, 0)).1 ∧
    ((computeDepthRanges aheadModel).getD 0 (0, 0)).1 <
      ((computeDepthRanges aheadModel).getD 0 (0, 0)).2 :=
  depthRange_nondegenerate aheadModel 0 (by decide) (by decide)

/-! ## Lemmas about `ComputeSharedPoints` -/

theorem pairHits_fst_eq_a {a b : ℕ} (hab : a ≠ b) (s : ℕ) :
    pairHits a b (a, s) = (s == b) := by
  by_cases h : s = b
  · subst h
    simp [pairHits, bne_iff_ne, Ne.symm hab, hab]
  · simp [pairHits, beq_eq_false_iff_ne.mpr h, beq_eq_false_iff_ne.mpr hab]

theorem pairHits_fst_eq_b {a b : ℕ} (hab : a ≠ b) (s : ℕ) :
    pairHits a b (b, s) = (s == a) := by
  by_cases h : s = a
  · subst h
    simp [pairHits, bne_iff_ne, Ne.symm hab, hab]
  · simp [pairHits, beq_eq_false_iff_ne.mpr h, beq_eq_false_iff_ne.mpr (Ne.symm hab)]

theorem pairHits_fst_ne {a b x : ℕ} (hxa : x ≠ a) (hxb : x ≠ b) (s : ℕ) :
    pairHits a b (x, s) = false := by
  simp [pairHits, hxa, hxb]

theorem pairHits_self (c : ℕ) (q : ℕ × ℕ) : pairHits c c q = false := by
  by_cases h1 : q.1 = c <;> by_cases h2 : q.2 = c <;>
    simp [pairHits, h1, h2]

theorem pairHits_comm (a b : ℕ) : pairHits b a = pairHits a b := by
  funext q
  unfold pairHits
  rw [Bool.or_comm]

theorem count_nodup_indicator (b : ℕ) (seen : List ℕ) (h : seen.Nodup) :
    seen.count b = if b ∈ seen then 1 else 0 := by
  by_cases hb : b ∈ seen
  · rw [if_pos hb, List.count_eq_one_of_mem h hb]
  · rw [if_neg hb, List.count_eq_zero_of_not_mem hb]

/-- Counting the `(a, b)`-incrementing pairs produced by the tail of the
track scan: with `seen` the already-scanned distinct prefix, exactly one
pair hits iff both indices occur overall and not both are confined to the
prefix. -/
theorem pairsAux_countP (a b : ℕ) (hab : a ≠ b) :
    ∀ (t seen : List ℕ), (seen ++ t).Nodup →
      (pairsAux seen t).countP (pairHits a b) =
        if (a ∈ t ∨ a ∈ seen) ∧ (b ∈ t ∨ b ∈ seen) ∧ ¬(a ∈ seen ∧ b ∈ seen) then 1 else 0
  | [], seen, h => by
    rw [pairsAux, List.countP_nil, if_neg]
    simp only [List.not_mem_nil, false_or]
    tauto
  | x :: xs, seen, h => by
    have h' : ((seen ++ [x]) ++ xs).Nodup := by
      rwa [List.append_cons] at h
    have hsplit := List.nodup_append.mp h
    have hseen : seen.Nodup := hsplit.1
    have hxseen : x ∉ seen := fun hx => hsplit.2.2 hx (List.mem_cons_self x xs)
    have hxxs : x ∉ xs := (List.nodup_cons.mp hsplit.2.1).1
    have ih := pairsAux_countP a b hab xs (seen ++ [x]) h'
    rw [pairsAux, List.countP_append, List.countP_map, ih]
    simp only [List.mem_append, List.mem_singleton, List.mem_cons]
    by_cases hxa : x = a
    · subst hxa
    -- the scanned element is `a`: the prefix contributes `count b seen`
      have hcount : seen.countP (pairHits x b ∘ fun s => (x, s)) = seen.count b := by
        rw [List.count_eq_countP]
        exact List.countP_congr (fun s _ => by simp [pairHits_fst_eq_a hab s])
      rw [hcount, count_nodup_indicator b seen hseen]
      by_cases hbs : b ∈ seen <;> by_cases hbx : b ∈ xs <;>
        simp [hbs, hbx, hxseen, hxxs, hab, Ne.symm hab]
    · by_cases hxb : x = b
      · subst hxb
        have hcount : seen.countP (pairHits a x ∘ fun s => (x, s)) = seen.count a := by
          rw [List.count_eq_countP]
          exact List.countP_congr (fun s _ => by simp [pairHits_fst_eq_b hab s])
        rw [hcount, count_nodup_indicator a seen hseen]
        by_cases has : a ∈ seen <;> by_cases hax : a ∈ xs <;>
          simp [has, hax, hxseen, hxxs, hab, Ne.symm hab]
      · have hcount : seen.countP (pairHits a b ∘ fun s => (x, s)) = 0 := by
          rw [List.countP_eq_zero]
          intro s _
          simp [pairHits_fst_ne hxa hxb s]
        rw [hcount, Nat.zero_add]
        have hca : (a = x) = False := by simp [Ne.symm hxa]
        have hcb : (b = x) = False := by simp [Ne.symm hxb]
        simp only [hca, hcb, false_or]
        exact if_congr (by simp only [List.not_mem_nil, or_false]) rfl rfl

theorem trackPairs_countP (a b : ℕ) (hab : a ≠ b) (t : List ℕ) (ht : t.Nodup) :
    ((trackPairs t).filter (pairHits a b)).length = if a ∈ t ∧ b ∈ t then 1 else 0 := by
  rw [← List.countP_eq_length_filter, trackPairs,
    pairsAux_countP a b hab t [] (by simpa using ht)]
  simp

theorem sharedCount_comm (m : Model) (a b : ℕ) :
    sharedCount m b a = sharedCount m a b := by
  unfold sharedCount
  simp only [pairHits_comm]

theorem sharedCount_self (m : Model) (c : ℕ) : sharedCount m c c = 0 := by
  unfold sharedCount
  have hfalse : pairHits c c = fun _ => false := funext (pairHits_self c)
  simp [hfalse]

theorem sum_shared_filter (a b : ℕ) (hab : a ≠ b) :
    ∀ (ps : List Point), (∀ p ∈ ps, p.track.Nodup) →
      (ps.map (fun p => ((trackPairs p.track).filter (pairHits a b)).length)).sum =
        (ps.filter (fun p => a ∈ p.track ∧ b ∈ p.track)).length
  | [], _ => rfl
  | p :: ps, hnd => by
    have ih := sum_shared_filter a b hab ps (fun q hq => hnd q (List.mem_cons_of_mem p hq))
    rw [List.map_cons, List.sum_cons, ih,
      trackPairs_countP a b hab p.track (hnd p (List.mem_cons_self p ps))]
    rw [List.filter_cons]
    by_cases hp : a ∈ p.track ∧ b ∈ p.track
    · simp [hp, Nat.add_comm]
    · simp [hp]

/-! ## Claims about `ComputeSharedPoints` -/

/-- **C2**: with duplicate-free tracks, each point increments the symmetric
cells of every unordered pair of distinct frames of its track by exactly 1
(so the count is the number of points seeing both frames), and no self cell
is ever created. -/
theorem sharedPoints_counts (m : Model) (a b : ℕ) (hab : a ≠ b)
    (hnd : ∀ p ∈ m.points, p.track.Nodup) :
    sharedCount m a b = (m.points.filter (fun p => a ∈ p.track ∧ b ∈ p.track)).length ∧
    sharedCount m b a = sharedCount m a b ∧
    ∀ c, sharedCount m c c = 0 :=
  ⟨sum_shared_filter a b hab m.points hnd,
   sharedCount_comm m a b,
   sharedCount_self m⟩

/-- Witness for C2: one point observed by frames `{0, 1, 2}` yields count 1
for all six ordered pairs and 0 on the diagonal. -/
theorem sharedPoints_counts_witness :
    sharedCount model3 0 1 = 1 ∧ sharedCount model3 0 2 = 1 ∧ sharedCount model3 1 2 = 1 ∧
    sharedCount model3 1 0 = 1 ∧ sharedCount model3 2 0 = 1 ∧ sharedCount model3 2 1 = 1 ∧
    sharedCount model3 0 0 = 0 ∧ sharedCount model3 1 1 = 0 ∧ sharedCount model3 2 2 = 0 :=
  have h01 := sharedPoints_counts model3 0 1 (by decide) (by decide)
  ⟨h01.1.trans (by decide), by decide, by decide,
   h01.2.1.trans (h01.1.trans (by decide)), by decide, by decide,
   h01.2.2 0, h01.2.2 1, h01.2.2 2⟩

/-- **C10**: a track `[a, a, b]` with `a ≠ b` contributes 2 (not 1) to both
`sharedCount[a][b]` and `sharedCount[b][a]`, and still no self entry. -/
theorem sharedPoints_dup_track (a b : ℕ) (hab : a ≠ b) :
    sharedCount (dupTrackModel a b) a b = 2 ∧
    sharedCount (dupTrackModel a b) b a = 2 ∧
    sharedCount (dupTrackModel a b) a a = 0 ∧
    sharedCount (dupTrackModel a b) b b = 0 := by
  have ht : trackPairs [a, a, b] = [(a, a), (b, a), (b, a)] := rfl
  have h2 : sharedCount (dupTrackModel a b) a b = 2 := by
    unfold sharedCount dupTrackModel
    rw [List.map_cons, List.map_nil, List.sum_cons, List.sum_nil]
    simp only [ht]
    simp [pairHits, bne_iff_ne, hab, Ne.symm hab]
  exact ⟨h2, (sharedCount_comm (dupTrackModel a b) a b).trans h2,
    sharedCount_self (dupTrackModel a b) a, sharedCount_self (dupTrackModel a b) b⟩

/-- Witness for C10 at the concrete pair `(0, 1)`. -/
theorem sharedPoints_dup_track_witness :
    sharedCount (dupTrackModel 0 1) 0 1 = 2 ∧
    sharedCount (dupTrackModel 0 1) 1 0 = 2 ∧
    sharedCount (dupTrackModel 0 1) 0 0 = 0 ∧
    sharedCount (dupTrackModel 0 1) 1 1 = 0 :=
  sharedPoints_dup_track 0 1 (by decide)

/-! ## Lemmas about the readers -/

theorem mapOpt_cons_eq_some {α β : Type} (f : α → Option β) (x : α) (xs : List α)
    (l' : List β) (h : mapOpt f (x :: xs) = some l') :
    ∃ y ys, f x = some y ∧ mapOpt f xs = some ys ∧ l' = y :: ys := by
  cases hfx : f x with
  | none => rw [mapOpt, hfx] at h; cases h
  | some y =>
    cases hm : mapOpt f xs with
    | none => rw [mapOpt, hfx, hm] at h; cases h
    | some ys =>
      rw [mapOpt, hfx, hm] at h
      cases h
      exact ⟨y, ys, rfl, rfl, rfl⟩

theorem mapOpt_eq_none {α β : Type} (f : α → Option β) (x : α) :
    ∀ (l : List α), x ∈ l → f x = none → mapOpt f l = none
  | y :: ys, hmem, hfx => by
    rcases List.mem_cons.mp hmem with rfl | htail
    · rw [mapOpt, hfx]
      rfl
    · cases hfy : f y with
      | none => rw [mapOpt, hfy]; rfl
      | some z =>
        rw [mapOpt, hfy, mapOpt_eq_none f x ys htail hfx]
        rfl

theorem mapOpt_map_of_some {α β γ : Type} (f : α → Option β) (pr : β → γ) (g : α → γ)
    (hf : ∀ x e, f x = some e → pr e = g x) :
    ∀ (l : List α) (l' : List β), mapOpt f l = some l' → l'.map pr = l.map g
  | [], l', h => by
    cases h
    rfl
  | x :: xs, l', h => by
    obtain ⟨y, ys, hfx, hm, rfl⟩ := mapOpt_cons_eq_some f x xs l' h
    rw [List.map_cons, List.map_cons, hf x y hfx, mapOpt_map_of_some f pr g hf xs ys hm]

/-- Unravel a successful `readFromPMVS` into its two traversals. -/
theorem readFromPMVS_parts (inp : PMVSInput) (m : Model)
    (h : readFromPMVS inp = some m) :
    ∃ imgs pts, mapOpt pmvsImageEntry inp.images.enum = some imgs ∧
      mapOpt (pmvsPointEntry inp.images.length) inp.points = some pts ∧
      m.images = imgs.map Prod.fst ∧ m.imageNames = imgs.map Prod.snd ∧
      m.points = pts := by
  cases h1 : mapOpt pmvsImageEntry inp.images.enum with
  | none => rw [readFromPMVS, h1] at h; cases h
  | some imgs =>
    cases h2 : mapOpt (pmvsPointEntry inp.images.length) inp.points with
    | none => rw [readFromPMVS, h1, h2] at h; cases h
    | some pts =>
      rw [readFromPMVS, h1, h2] at h
      cases h
      exact ⟨imgs, pts, rfl, rfl, rfl, rfl, rfl⟩

theorem readFromPMVS_imgs_none (inp : PMVSInput)
    (h : mapOpt pmvsImageEntry inp.images.enum = none) : readFromPMVS inp = none := by
  rw [readFromPMVS, h]
  rfl

theorem readFromPMVS_pts_none (inp : PMVSInput)
    (h : mapOpt (pmvsPointEntry inp.images.length) inp.points = none) :
    readFromPMVS inp = none := by
  cases h1 : mapOpt pmvsImageEntry inp.images.enum with
  | none => rw [readFromPMVS, h1]; rfl
  | some imgs => rw [readFromPMVS, h1, h]; rfl

/-- Unravel a successful `readFromCOLMAP` into its two traversals. -/
theorem readFromCOLMAP_parts (inp : ColmapInput) (m : Model)
    (h : readFromCOLMAP inp = some m) :
    ∃ imgs pts, mapOpt colmapImageEntry inp.regImages = some imgs ∧
      mapOpt (colmapPointEntry inp) inp.points = some pts ∧
      m.images = imgs.map Prod.fst ∧ m.imageNames = imgs.map Prod.snd ∧
      m.points = pts := by
  cases h1 : mapOpt colmapImageEntry inp.regImages with
  | none => rw [readFromCOLMAP, h1] at h; cases h
  | some imgs =>
    cases h2 : mapOpt (colmapPointEntry inp) inp.points with
    | none => rw [readFromCOLMAP, h1, h2] at h; cases h
    | some pts =>
      rw [readFromCOLMAP, h1, h2] at h
      cases h
      exact ⟨imgs, pts, rfl, rfl, rfl, rfl, rfl⟩

theorem readFromCOLMAP_pts_none (inp : ColmapInput)
    (h : mapOpt (colmapPointEntry inp) inp.points = none) :
    readFromCOLMAP inp = none := by
  cases h1 : mapOpt colmapImageEntry inp.regImages with
  | none => rw [readFromCOLMAP, h1]; rfl
  | some imgs => rw [readFromCOLMAP, h1, h]; rfl

/-- A loaded PMVS model names its frames `%08d.jpg` positionally. -/
theorem readFromPMVS_names (inp : PMVSInput) (m : Model)
    (h : readFromPMVS inp = some m) :
    m.imageNames = (List.range inp.images.length).map pmvsImageName := by
  obtain ⟨imgs, _, h1, _, _, hnames, _⟩ := readFromPMVS_parts inp m h
  have hsnd : imgs.map Prod.snd = inp.images.enum.map (fun e => pmvsImageName e.1) := by
    apply mapOpt_map_of_some pmvsImageEntry Prod.snd (fun e => pmvsImageName e.1) ?_ _ _ h1
    intro x e hx
    rw [pmvsImageEntry] at hx
    split at hx
    · cases hx; rfl
    · cases hx
  rw [hnames, hsnd, ← List.enum_map_fst inp.images, List.map_map]
  rfl

/-- A loaded COLMAP model carries the upstream image names in enumeration
order. -/
theorem readFromCOLMAP_names (inp : ColmapInput) (m : Model)
    (h : readFromCOLMAP inp = some m) :
    m.imageNames = inp.regImages.map (fun e => e.2.name) := by
  obtain ⟨imgs, _, h1, _, _, hnames, _⟩ := readFromCOLMAP_parts inp m h
  rw [hnames]
  apply mapOpt_map_of_some colmapImageEntry Prod.snd (fun e => e.2.name) ?_ _ _ h1
  intro x e hx
  rw [colmapImageEntry] at hx
  split at hx
  · cases hx; rfl
  · cases hx

/-! ## Lemmas about the decimal name rendering -/

theorem digitChar_val {d : ℕ} (hd : d < 10) : (digitChar d).toNat - 48 = d := by
  interval_cases d <;> rfl

theorem natDigitsAux_foldl :
    ∀ (fuel n acc : ℕ), n < fuel →
      (natDigitsAux fuel n).foldl (fun a c => 10 * a + (c.toNat - 48)) acc
        = acc * 10 ^ (natDigitsAux fuel n).length + n
  | fuel + 1, n, acc, h => by
    rw [natDigitsAux]
    by_cases h10 : n < 10
    · rw [if_pos h10]
      simp [digitChar_val h10]
      ring
    · rw [if_neg h10]
      have hdiv : n / 10 < fuel := by omega
      have ih := natDigitsAux_foldl fuel (n / 10) acc hdiv
      rw [List.foldl_append, ih]
      simp only [List.foldl_cons, List.foldl_nil, List.length_append, List.length_cons,
        List.length_nil, digitChar_val (Nat.mod_lt n (by norm_num))]
      calc 10 * (acc * 10 ^ (natDigitsAux fuel (n / 10)).length + n / 10) + n % 10
          = acc * (10 ^ (natDigitsAux fuel (n / 10)).length * 10)
              + (10 * (n / 10) + n % 10) := by ring
        _ = acc * 10 ^ ((natDigitsAux fuel (n / 10)).length + 0 + 1) + n := by
              rw [Nat.div_add_mod, Nat.add_zero, pow_succ]

theorem ofDigits_natDigits (n : ℕ) : ofDigits (natDigits n) = n := by
  rw [ofDigits, natDigits, natDigitsAux_foldl (n + 1) n 0 (Nat.lt_succ_self n),
    Nat.zero_mul, Nat.zero_add]

theorem foldl_replicate_zero :
    ∀ k : ℕ, (List.replicate k '0').foldl (fun a c => 10 * a + (c.toNat - 48)) 0 = 0
  | 0 => rfl
  | k + 1 => by
    rw [List.replicate_succ, List.foldl_cons]
    exact foldl_replicate_zero k

theorem ofDigits_replicate_zero (k : ℕ) (l : List Char) :
    ofDigits (List.replicate k '0' ++ l) = ofDigits l := by
  rw [ofDigits, List.foldl_append, foldl_replicate_zero k, ofDigits]

theorem pmvsImageName_inj : Function.Injective pmvsImageName := by
  intro i j hij
  have hdata : List.replicate (8 - (natDigits i).length) '0' ++ natDigits i ++ ".jpg".data
      = List.replicate (8 - (natDigits j).length) '0' ++ natDigits j ++ ".jpg".data :=
    congrArg String.data hij
  have hlen : (List.replicate (8 - (natDigits i).length) '0' ++ natDigits i).length
      = (List.replicate (8 - (natDigits j).length) '0' ++ natDigits j).length := by
    have := congrArg List.length hdata
    simp only [List.length_append, List.length_replicate] at this
    simp only [List.length_append, List.length_replicate]
    omega
  have hmain := (List.append_inj hdata hlen).1
  have hval : ofDigits (List.replicate (8 - (natDigits i).length) '0' ++ natDigits i)
      = ofDigits (List.replicate (8 - (natDigits j).length) '0' ++ natDigits j) := by
    rw [hmain]
  rwa [ofDigits_replicate_zero, ofDigits_replicate_zero, ofDigits_natDigits,
    ofDigits_natDigits] at hval

/-! ## Lemmas about the name→index lookup -/

theorem find?_range'_min (p : ℕ → Bool) (i : ℕ) (hp : p i) :
    ∀ (k s : ℕ), s ≤ i → i < s + k → (∀ j, s ≤ j → j < i → p j = false) →
      (List.range' s k).find? p = some i
  | 0, s, hs, hik, _ => by omega
  | k + 1, s, hs, hik, hmin => by
    rw [List.range'_succ]
    by_cases hsi : s = i
    · subst hsi
      exact List.find?_cons_of_pos _ hp
    · have hlt : s < i := lt_of_le_of_ne hs hsi
      rw [List.find?_cons_of_neg _ (by simp [hmin s le_rfl hlt])]
      exact find?_range'_min p i hp k (s + 1) hlt (by omega)
        (fun j hj hji => hmin j (by omega) hji)

/-- With duplicate-free names, looking up the name at index `i` returns `i`
(the `emplace` first-wins lookup finds no earlier occurrence). -/
theorem getImageId_getD (m : Model) (hnd : m.imageNames.Nodup) (i : ℕ)
    (hi : i < m.imageNames.length) :
    m.getImageId (m.imageNames.getD i "") = some i := by
  rw [Model.getImageId, List.range_eq_range']
  apply find?_range'_min _ i (by simp) _ 0 (Nat.zero_le i) (by omega)
  intro j _ hji
  have hj : j < m.imageNames.length := lt_trans hji hi
  rw [beq_eq_false_iff_ne]
  intro heq
  have hne := List.nodup_iff_getElem?_ne_getElem?.mp hnd j i hji hi
  apply hne
  rw [List.getElem?_eq_getElem hj, List.getElem?_eq_getElem hi]
  have hgj : m.imageNames.getD j "" = m.imageNames[j] := by
    simp [List.getD_eq_getElem?_getD, List.getElem?_eq_getElem hj]
  have hgi : m.imageNames.getD i "" = m.imageNames[i] := by
    simp [List.getD_eq_getElem?_getD, List.getElem?_eq_getElem hi]
  rw [← hgj, ← hgi, heq]

theorem roundtrip_of_nodup (m : Model) (hnd : m.imageNames.Nodup) (i : ℕ)
    (hi : i < m.imageNames.length) :
    (m.getImageName i).bind m.getImageId = some i := by
  rw [Model.getImageName, List.getElem?_eq_getElem hi, Option.some_bind]
  have hgi : m.imageNames.getD i "" = m.imageNames[i] := by
    simp [List.getD_eq_getElem?_getD, List.getElem?_eq_getElem hi]
  rw [← hgi]
  exact getImageId_getD m hnd i hi

theorem pmvsR_rows (R : Fin 3 → Fin 3 → ℚ) (c : Fin 3) :
    pmvsR R 0 c = R 0 c ∧ pmvsR R 1 c = -(R 1 c) ∧ pmvsR R 2 c = -(R 2 c) := by
  refine ⟨?_, ?_, ?_⟩ <;> simp [pmvsR]

theorem pmvsT_comps (T : Fin 3 → ℚ) :
    pmvsT T 0 = T 0 ∧ pmvsT T 1 = -(T 1) ∧ pmvsT T 2 = -(T 2) := by
  refine ⟨?_, ?_, ?_⟩ <;> simp [pmvsT]

/-! ## Claims about the readers -/

/-- **C4**: for a loaded model (PMVS, or COLMAP with the upstream's unique
image names), the frame names are unique and `indexOf(nameOf(i)) = i` for
every valid index. -/
theorem name_index_roundtrip (m : Model)
    (hm : (∃ pinp : PMVSInput, readFromPMVS pinp = some m) ∨
          (∃ cinp : ColmapInput, (cinp.regImages.map (fun e => e.2.name)).Nodup ∧
            readFromCOLMAP cinp = some m))
    (i : ℕ) (hi : i < m.imageNames.length) :
    m.imageNames.Nodup ∧ (m.getImageName i).bind m.getImageId = some i := by
  have hnd : m.imageNames.Nodup := by
    rcases hm with ⟨pinp, h⟩ | ⟨cinp, hnodup, h⟩
    · rw [readFromPMVS_names pinp m h]
      exact (List.nodup_range _).map pmvsImageName_inj
    · rw [readFromCOLMAP_names cinp m h]
      exact hnodup
  exact ⟨hnd, roundtrip_of_nodup m hnd i hi⟩

/-- Witness for C4: the two-image PMVS load round-trips index 1. -/
theorem name_index_roundtrip_witness :
    pexModel2.imageNames.Nodup ∧
    (pexModel2.getImageName 1).bind pexModel2.getImageId = some 1 :=
  name_index_roundtrip pexModel2 (Or.inl ⟨pexInput2, rfl⟩) 1 (by decide)

unseal Rat.mul Rat.add Rat.sub Rat.inv in
/-- Counterexample for C5 as frozen: the claim reads "rotation with rows 2
and 3 (0-indexed) negated / translation with components 2 and 3 negated",
which leaves row 1 and component 1 (0-indexed) unchanged; the reader negates
them: with input `R[1][0] = 4` and `T[1] = 2` the output holds `-4` and
`-2`. -/
theorem pmvs_negation_cex :
    (readFromPMVS pexInput).map (fun mdl => (mdl.images.getD 0 default).R 1 0) = some (-4) ∧
    pexImage.R 1 0 = 4 ∧
    (readFromPMVS pexInput).map (fun mdl => (mdl.images.getD 0 default).T 1) = some (-2) ∧
    pexImage.T 1 = 2 ∧
    ((-4 : ℚ) ≠ 4) ∧ ((-2 : ℚ) ≠ 2) := by
  refine ⟨by decide, by decide, by decide, by decide, by decide, by decide⟩

/-- **C5 (amended)**: the PMVS reader keeps rotation row 0 and negates rows
1 and 2 (0-indexed, i.e. the second and third rows), keeps translation
component 0 and negates components 1 and 2. -/
theorem pmvs_pose_rows (inp : PMVSInput) (m : Model) (h : readFromPMVS inp = some m)
    (i : ℕ) (img : PMVSImage) (himg : inp.images[i]? = some img) :
    ∃ pose : ImagePose, m.images[i]? = some pose ∧
      (∀ c : Fin 3,
        pose.R 0 c = img.R 0 c ∧ pose.R 1 c = -(img.R 1 c) ∧ pose.R 2 c = -(img.R 2 c)) ∧
      pose.T 0 = img.T 0 ∧ pose.T 1 = -(img.T 1) ∧ pose.T 2 = -(img.T 2) := by
  obtain ⟨imgs, pts, h1, h2, himages, hnames, hpts⟩ := readFromPMVS_parts inp m h
  have hfst : imgs.map Prod.fst = inp.images.enum.map
      (fun e => ({ K := pmvsK e.2, R := pmvsR e.2.R, T := pmvsT e.2.T } : ImagePose)) := by
    apply mapOpt_map_of_some pmvsImageEntry Prod.fst _ ?_ _ _ h1
    intro x e hx
    rw [pmvsImageEntry] at hx
    split at hx
    · cases hx; rfl
    · cases hx
  have hidx : m.images[i]? =
      some ({ K := pmvsK img, R := pmvsR img.R, T := pmvsT img.T } : ImagePose) := by
    rw [himages, hfst, List.getElem?_map, List.getElem?_enum, himg]
    rfl
  exact ⟨_, hidx, fun c => pmvsR_rows img.R c, pmvsT_comps img.T⟩

/-- Witness for the amended C5 at the concrete one-image bundle input. -/
theorem pmvs_pose_rows_witness :
    ∃ pose : ImagePose, pexModel.images[0]? = some pose ∧
      (∀ c : Fin 3,
        pose.R 0 c = pexImage.R 0 c ∧ pose.R 1 c = -(pexImage.R 1 c) ∧
          pose.R 2 c = -(pexImage.R 2 c)) ∧
      pose.T 0 = pexImage.T 0 ∧ pose.T 1 = -(pexImage.T 1) ∧ pose.T 2 = -(pexImage.T 2) :=
  pmvs_pose_rows pexInput pexModel rfl 0 pexImage rfl

theorem pmvsTrackEntry_none (n : ℕ) (el : PMVSTrackEl) (hn : n ≤ 2 ^ 31)
    (h1 : -2 ^ 31 ≤ el.imageIdx) (h2 : el.imageIdx < 2 ^ 31)
    (hbad : el.imageIdx < 0 ∨ (n : ℤ) ≤ el.imageIdx) :
    pmvsTrackEntry n el = none := by
  rw [pmvsTrackEntry, if_neg]
  rw [sizeTofInt]
  have e64 : (2 : ℤ) ^ 64 = 18446744073709551616 := by norm_num
  have e31 : (2 : ℤ) ^ 31 = 2147483648 := by norm_num
  have e31n : (2 : ℕ) ^ 31 = 2147483648 := by norm_num
  rw [e64]
  rw [e31] at h1 h2
  rw [e31n] at hn
  omega

theorem pmvsPointEntry_none (n : ℕ) (p : PMVSPoint) (el : PMVSTrackEl)
    (hel : el ∈ p.track) (hnone : pmvsTrackEntry n el = none) :
    pmvsPointEntry n p = none := by
  rw [pmvsPointEntry, mapOpt_eq_none _ el p.track hel hnone]
  rfl

theorem colmapIdMap_none (inp : ColmapInput) (id : ℕ)
    (h : id ∉ inp.regImages.map Prod.fst) : colmapIdMap inp id = none := by
  rw [colmapIdMap, List.find?_eq_none.mpr, Option.map_none']
  intro e he
  obtain ⟨a, b⟩ := e
  rw [List.mk_mem_enum_iff_getElem?] at he
  have hb : b ∈ inp.regImages.map Prod.fst := List.getElem?_mem he
  simp only [beq_iff_eq]
  intro heq
  exact h (heq ▸ hb)

theorem colmapPointEntry_none (inp : ColmapInput) (p : ColmapPoint) (el : ℕ × ℕ)
    (hel : el ∈ p.track) (hid : colmapIdMap inp el.1 = none) :
    colmapPointEntry inp p = none := by
  rw [colmapPointEntry, mapOpt_eq_none _ el p.track hel hid]
  rfl

/-- **C6**: in both readers, a track entry whose frame reference is out of
range — unmapped upstream id for COLMAP, negative or too-large `int` index
for PMVS (within the `int` value range, with the image count in `int`
range) — aborts the whole load with no partial result. -/
theorem track_out_of_range_fatal (pinp : PMVSInput) (cinp : ColmapInput)
    (hn : pinp.images.length ≤ 2 ^ 31)
    (hp : ∃ p ∈ pinp.points, ∃ el ∈ p.track,
      -2 ^ 31 ≤ el.imageIdx ∧ el.imageIdx < 2 ^ 31 ∧
      (el.imageIdx < 0 ∨ (pinp.images.length : ℤ) ≤ el.imageIdx))
    (hc : ∃ p ∈ cinp.points, ∃ el ∈ p.track, el.1 ∉ cinp.regImages.map Prod.fst) :
    readFromPMVS pinp = none ∧ readFromCOLMAP cinp = none := by
  constructor
  · obtain ⟨p, hpmem, el, helmem, hb1, hb2, hbad⟩ := hp
    exact readFromPMVS_pts_none pinp (mapOpt_eq_none _ p pinp.points hpmem
      (pmvsPointEntry_none _ p el helmem (pmvsTrackEntry_none _ el hn hb1 hb2 hbad)))
  · obtain ⟨p, hpmem, el, helmem, hid⟩ := hc
    exact readFromCOLMAP_pts_none cinp (mapOpt_eq_none _ p cinp.points hpmem
      (colmapPointEntry_none cinp p el helmem (colmapIdMap_none cinp el.1 hid)))

/-- Witness for C6: index 1 with a single image (PMVS) and unregistered id 5
(COLMAP) both abort. -/
theorem track_out_of_range_fatal_witness :
    readFromPMVS badTrackPMVS = none ∧ readFromCOLMAP badTrackCOLMAP = none :=
  track_out_of_range_fatal badTrackPMVS badTrackCOLMAP (by decide) (by decide) (by decide)

/-- **C7**: a non-zero distortion coefficient in the bundle file aborts the
PMVS load; no model is returned. -/
theorem pmvs_distortion_fatal (inp : PMVSInput)
    (h : ∃ img ∈ inp.images, img.k1 ≠ 0 ∨ img.k2 ≠ 0) :
    readFromPMVS inp = none := by
  obtain ⟨img, hmem, hk⟩ := h
  obtain ⟨i, hi, hieq⟩ := List.mem_iff_getElem.mp hmem
  have henum : (i, img) ∈ inp.images.enum := by
    rw [List.mk_mem_enum_iff_getElem?, List.getElem?_eq_getElem hi, hieq]
  have hentry : pmvsImageEntry (i, img) = none := by
    rw [pmvsImageEntry, if_neg]
    tauto
  exact readFromPMVS_imgs_none inp (mapOpt_eq_none _ _ _ henum hentry)

/-- Witness for C7: `k1 = 1` aborts the load. -/
theorem pmvs_distortion_fatal_witness : readFromPMVS badDistPMVS = none :=
  pmvs_distortion_fatal badDistPMVS (by decide)

end ColmapMvs
